import Mathlib

/-!
# Read-path adapter of the legacy user store

A shallow embedding of `pkg/registry/apis/iam/user/store.go`: the record
projector (`toUserItem`, `formatTime`) and the two read operations of
`LegacyStore` (`List`, `Get`), followed by theorems about them.

Conventions of the embedding:

* Go's `int64` is `Int`; where a computation can leave the 64-bit range the
  result is wrapped explicitly (`Time.UnixMilli` with `wrapInt64`, the
  absolute seconds behind `Time.Format` modulo 2^64).
* a Go pointer that may be nil is an `Option`;
* a Go call returning `(value, error)` where the code inspects both halves
  (`ListUsers`) is a pair of options; the adapter's own operations return a
  `Result`, which also records a run-time panic.
-/

set_option autoImplicit false

/-! ## Go runtime pieces: integers and decimal text -/

/-- Two's-complement wrap of an integer into the `int64` range. -/
def wrapInt64 (x : Int) : Int :=
  (x + 2 ^ 63) % 2 ^ 64 - 2 ^ 63

/-- The character of one decimal digit. -/
def digitChar : Nat → Char
  | 0 => '0'
  | 1 => '1'
  | 2 => '2'
  | 3 => '3'
  | 4 => '4'
  | 5 => '5'
  | 6 => '6'
  | 7 => '7'
  | 8 => '8'
  | _ => '9'

/-- Decimal digits of `n`, most significant first; `fuel` bounds the number
of divisions and `n + 1` always suffices. -/
def decimalDigits : Nat → Nat → List Nat
  | 0, _ => []
  | fuel + 1, n => if n < 10 then [n] else decimalDigits fuel (n / 10) ++ [n % 10]

/-- Decimal characters of a natural number, no padding. -/
def natDecimal (n : Nat) : List Char :=
  (decimalDigits (n + 1) n).map digitChar

/-- The characters that Go's `%d` verb (and `strconv.FormatInt(_, 10)`)
prints for a signed integer. -/
def intDecimal (x : Int) : List Char :=
  if x < 0 then '-' :: natDecimal x.natAbs else natDecimal x.natAbs

/-- Go's `fmt.Sprintf("%d", x)`. -/
def fmt.Sprintf_d (x : Int) : String :=
  String.mk (intDecimal x)

/-- Value of a big-endian list of decimal digits. -/
def digitsValue : List Nat → Nat
  | [] => 0
  | d :: ds => d * 10 ^ ds.length + digitsValue ds

/-- The digit a decimal character stands for. -/
def charDigit (c : Char) : Nat :=
  c.toNat - 48

/-- The integer a decimal text denotes: an optional leading minus sign, then
the big-endian digits. -/
def parseDecimal (s : String) : Int :=
  match s.data with
  | '-' :: rest => -(digitsValue (rest.map charDigit) : Int)
  | cs => (digitsValue (cs.map charDigit) : Int)

/-- A numeric string: non-empty and made of the decimal digits only. -/
def isNumericString (s : String) : Bool :=
  !s.data.isEmpty && s.data.all (fun c => decide ('0' ≤ c) && decide (c ≤ '9'))

/-! ## Go's `time.Time` -/

/-- Go's `time.Time`, reduced to the instant and the zone offset: `sec` is
the Unix time in seconds, `nsec` the nanoseconds within that second and
`offset` the zone offset of the time's location in seconds east of UTC. -/
structure time.Time where
  sec : Int
  nsec : Nat
  offset : Int
deriving DecidableEq, Repr

/-- The values a Go program can hold: the seconds fit `int64` and the
nanoseconds are below one second. -/
def time.Time.WellFormed (t : time.Time) : Prop :=
  -(2 : Int) ^ 63 ≤ t.sec ∧ t.sec < 2 ^ 63 ∧ t.nsec < 1000000000

instance (t : time.Time) : Decidable t.WellFormed := by
  unfold time.Time.WellFormed; infer_instance

/-- Go's `Time.Unix`: seconds since the Unix epoch. -/
def time.Time.Unix (t : time.Time) : Int := t.sec

/-- Go's `Time.UnixMilli`: `t.unixSec()*1e3 + int64(t.nsec())/1e6`, computed
in `int64`. -/
def time.Time.UnixMilli (t : time.Time) : Int :=
  wrapInt64 (t.sec * 1000 + (t.nsec / 1000000 : Nat))

/-- The Unix time of `t` in milliseconds fits `int64`, the range outside of
which Go leaves the result of `UnixMilli` undefined. -/
def time.Time.MilliRepresentable (t : time.Time) : Prop :=
  -(2 : Int) ^ 63 ≤ t.sec * 1000 + (t.nsec / 1000000 : Nat) ∧
    t.sec * 1000 + (t.nsec / 1000000 : Nat) < 2 ^ 63

instance (t : time.Time) : Decidable t.MilliRepresentable := by
  unfold time.Time.MilliRepresentable; infer_instance

/-- Go's `Time.UTC`: the same instant with the location set to UTC. -/
def time.Time.UTC (t : time.Time) : time.Time :=
  { t with offset := 0 }

/-- Go's `Time.Before`: the instant of `t` is strictly earlier than that of `u`. -/
def time.Time.Before (t u : time.Time) : Bool :=
  decide (t.sec < u.sec) || (decide (t.sec = u.sec) && decide (t.nsec < u.nsec))

/-- Go's `Time.Equal`: the two values denote the same instant, whatever
their locations. -/
def time.Time.Equal (t u : time.Time) : Bool :=
  decide (t.sec = u.sec) && decide (t.nsec = u.nsec)

/-- The zero padding of Go's `appendInt`: `x` in decimal, a minus sign first
when negative, the digits padded with zeros to at least `width`. -/
def time.appendInt (x : Int) (width : Nat) : List Char :=
  let ds := natDecimal x.natAbs
  let padded := List.replicate (width - ds.length) '0' ++ ds
  if x < 0 then '-' :: padded else padded

/-- Civil date (year, month, day) of a day count relative to 1970-01-01 in
the proleptic Gregorian calendar. -/
def time.civilFromDays (days : Int) : Int × Int × Int :=
  let z := days + 719468
  let era := z / 146097
  let doe := z - era * 146097
  let yoe := (doe - doe / 1460 + doe / 36524 - doe / 146096) / 365
  let doy := doe - (365 * yoe + yoe / 4 - yoe / 100)
  let mp := (5 * doy + 2) / 153
  let d := doy - (153 * mp + 2) / 5 + 1
  let m := if mp < 10 then mp + 3 else mp - 9
  let y := yoe + era * 400 + (if m ≤ 2 then 1 else 0)
  (y, m, d)

/-- The zone suffix of the layout element `Z07:00`: `Z` at offset zero,
otherwise the signed hours and minutes. -/
def time.zoneSuffix (offset : Int) : List Char :=
  if offset = 0 then ['Z']
  else
    let zone := Int.tdiv offset 60
    let az := zone.natAbs
    (if zone < 0 then '-' else '+') ::
      (time.appendInt (az / 60 : Nat) 2 ++ ':' :: time.appendInt (az % 60 : Nat) 2)

/-- Go's constant `unixToAbsolute` (`unixToInternal + internalToAbsolute`), the
seconds from the zero of Go's absolute time, March 1 of the year
-292277022400, to the Unix epoch. It is a whole number of days. (Go releases
that predate the current date algorithms count from January 1 of the year
-292277022399, 306 days later; the two agree on every time at or after
that day.) -/
def time.unixToAbsolute : Int := 9223372028741760000

/-- Go's absolute seconds of a time, `uint64(sec + offset + unixToAbsolute)`:
the seconds since the absolute zero in the time's zone, wrapped into the
64-bit unsigned range (modulo 2^64 = 18446744073709551616). -/
def time.Time.absSec (t : time.Time) : Int :=
  (t.sec + t.offset + time.unixToAbsolute) % 18446744073709551616

/-- Go's `t.Format(time.RFC3339)`, layout `2006-01-02T15:04:05Z07:00`. The
date and the clock are computed from the absolute seconds, so a time before
the absolute zero is rendered as the time 2^64 seconds later, as in Go. -/
def time.Time.FormatRFC3339 (t : time.Time) : String :=
  let unix := t.absSec - time.unixToAbsolute
  let days := unix / 86400
  let rem := unix % 86400
  let ymd := time.civilFromDays days
  String.mk
    (time.appendInt ymd.1 4 ++ '-' :: time.appendInt ymd.2.1 2 ++ '-' :: time.appendInt ymd.2.2 2
      ++ 'T' :: time.appendInt (rem / 3600) 2 ++ ':' :: time.appendInt (rem % 3600 / 60) 2
      ++ ':' :: time.appendInt (rem % 60) 2 ++ time.zoneSuffix t.offset)

/-! ## RFC 3339, read from the text

The definitions of this section do not come from the source. They say what
an RFC 3339 date-time in UTC denotes, by the textbook rules of the Gregorian
calendar, and serve to check the rendering above by reading it back. -/

/-- Gregorian leap year: divisible by 4, and not by 100 unless by 400. -/
def rfc3339.isLeapYear (y : Int) : Bool :=
  decide (y % 4 = 0) && (decide (y % 100 ≠ 0) || decide (y % 400 = 0))

/-- Number of days of month `m` (1 to 12) of year `y`. -/
def rfc3339.daysInMonth (y m : Int) : Int :=
  if m = 2 then (if rfc3339.isLeapYear y then 29 else 28)
  else if m = 4 ∨ m = 6 ∨ m = 9 ∨ m = 11 then 30
  else 31

/-- Number of days of year `y` that precede its month `m`. -/
def rfc3339.daysBeforeMonth (y m : Int) : Int :=
  (if m = 1 then 0
   else if m = 2 then 31
   else if m = 3 then 59
   else if m = 4 then 90
   else if m = 5 then 120
   else if m = 6 then 151
   else if m = 7 then 181
   else if m = 8 then 212
   else if m = 9 then 243
   else if m = 10 then 273
   else if m = 11 then 304
   else 334) + (if 2 < m ∧ rfc3339.isLeapYear y = true then 1 else 0)

/-- Number of days from 1970-01-01 to January 1 of year `y`: 365 per year
plus one per leap year in between (477 leap years precede 1970). -/
def rfc3339.daysBeforeYear (y : Int) : Int :=
  365 * (y - 1970) + ((y - 1) / 4 - (y - 1) / 100 + (y - 1) / 400) - 477

/-- Number of days from 1970-01-01 to the civil date `y`-`m`-`d`. -/
def rfc3339.unixDays (y m d : Int) : Int :=
  rfc3339.daysBeforeYear y + rfc3339.daysBeforeMonth y m + (d - 1)

/-- A decimal digit character. -/
def rfc3339.isDigit (c : Char) : Bool :=
  decide ('0' ≤ c) && decide (c ≤ '9')

/-- The Unix seconds that an RFC 3339 date-time in UTC denotes. The text
must be `YYYY-MM-DDTHH:MM:SSZ`: twenty characters, digits at the digit
places, the separators as shown, a month from 1 to 12, a day that exists in
that month, an hour below 24, minute and second below 60. Any other text
denotes nothing. -/
def rfc3339.unixSeconds (s : String) : Option Int :=
  match s.data with
  | [y1, y2, y3, y4, a, m1, m2, b, d1, d2, c, h1, h2, e, n1, n2, f, s1, s2, g] =>
    let year : Int := (digitsValue ([y1, y2, y3, y4].map charDigit) : Nat)
    let month : Int := (digitsValue ([m1, m2].map charDigit) : Nat)
    let day : Int := (digitsValue ([d1, d2].map charDigit) : Nat)
    let hour : Int := (digitsValue ([h1, h2].map charDigit) : Nat)
    let minute : Int := (digitsValue ([n1, n2].map charDigit) : Nat)
    let second : Int := (digitsValue ([s1, s2].map charDigit) : Nat)
    if a = '-' ∧ b = '-' ∧ c = 'T' ∧ e = ':' ∧ f = ':' ∧ g = 'Z' ∧
        [y1, y2, y3, y4, m1, m2, d1, d2, h1, h2, n1, n2, s1, s2].all rfc3339.isDigit = true ∧
        1 ≤ month ∧ month ≤ 12 ∧ 1 ≤ day ∧ day ≤ rfc3339.daysInMonth year month ∧
        hour < 24 ∧ minute < 60 ∧ second < 60 then
      some (rfc3339.unixDays year month day * 86400 + hour * 3600 + minute * 60 + second)
    else none
  | _ => none

/-! ## Types the adapter consumes and produces -/

/-- Go's `error` values as the adapter sees them: the NotFound status that
`resource.NewNotFound` builds, which carries the resource and the requested
name, and every other error, kept as its text. -/
inductive Error where
  | NotFound (resourceName : String) (name : String)
  | Other (msg : String)
deriving DecidableEq, Repr

/-- Outcome of an adapter operation: the Go pair `(obj, nil)`, the pair
`(nil, err)`, or a run-time panic (nil dereference, index out of range). -/
inductive Result (α : Type) where
  | ok (val : α)
  | err (e : Error)
  | panic
deriving DecidableEq, Repr

/-- Modelled from the spec: `user.User` of `pkg/services/user`, the
LegacyRecord of the data model, with the fields `toUserItem` reads. -/
structure user.User where
  ID : Int
  UID : String
  OrgID : Int
  Name : String
  Login : String
  Email : String
  EmailVerified : Bool
  IsDisabled : Bool
  IsAdmin : Bool
  IsProvisioned : Bool
  Created : time.Time
  Updated : time.Time
  LastSeenAt : time.Time
deriving DecidableEq, Repr

/-- Modelled from the spec: the object metadata. The four fields that
`toUserItem` fills in its literal are those of `metav1.ObjectMeta`; the
storage behind `utils.MetaAccessor` is not in the source, and the spec names
an updated-timestamp system field, a set of annotations and a deprecated
internal numeric identifier. -/
structure metav1.ObjectMeta where
  Name : String
  Namespace : String
  ResourceVersion : String
  CreationTimestamp : time.Time
  Annotations : List (String × String) := []
  UpdatedTimestamp : Option time.Time := none
  DeprecatedInternalID : Int := 0
deriving DecidableEq, Repr

/-- The payload `iamv0alpha.UserSpec`. -/
structure iamv0alpha.UserSpec where
  Name : String
  Login : String
  Email : String
  EmailVerified : Bool
  Disabled : Bool
  GrafanaAdmin : Bool
  Provisioned : Bool
deriving DecidableEq, Repr

/-- The canonical resource `iamv0alpha.User`. -/
structure iamv0alpha.User where
  ObjectMeta : metav1.ObjectMeta
  Spec : iamv0alpha.UserSpec
deriving DecidableEq, Repr

/-- The list object `iamv0alpha.UserList`: the items and the two fields of
its embedded `ListMeta` that `List` sets. -/
structure iamv0alpha.UserList where
  Items : List iamv0alpha.User
  Continue : String
  ResourceVersion : String
deriving DecidableEq, Repr

/-- The resolved namespace scope `claims.NamespaceInfo`: the namespace
string and the organisation it stands for. -/
structure claims.NamespaceInfo where
  Value : String
  OrgID : Int
deriving DecidableEq, Repr

/-- Modelled from the spec: the authorization decision point,
`CheckAccess(scope, resourceIdentity) → allow/deny`, the resource identity
being the resource kind and the name of the item. -/
structure claims.AccessClient where
  CheckAccess : claims.NamespaceInfo → String → String → Bool

/-- The page request `common.Pagination`. -/
structure common.Pagination where
  Limit : Int
  Continue : Int
deriving DecidableEq, Repr

/-- The page `common.ListResponse[T]` handed back by a list function. -/
structure common.ListResponse (T : Type) where
  Items : List T
  RV : Int
  Continue : Int

/-- The query `legacy.ListUserQuery`. -/
structure legacy.ListUserQuery where
  OrgID : Int := 0
  UID : String := ""
  Pagination : common.Pagination := { Limit := 0, Continue := 0 }
deriving DecidableEq, Repr

/-- The answer `legacy.ListUserResult`. -/
structure legacy.ListUserResult where
  Users : List user.User
  Continue : Int
  RV : Int
deriving DecidableEq, Repr

/-- The request context, reduced to what the adapter reads from it: the
outcome of resolving the namespace scope. -/
structure context.Context where
  namespaceInfo : Except Error claims.NamespaceInfo

/-- The legacy store as the adapter consumes it: `ListUsers` answers with the
Go pair `(*ListUserResult, error)`, either half of which may be nil. -/
structure legacy.LegacyIdentityStore where
  ListUsers : context.Context → claims.NamespaceInfo → legacy.ListUserQuery →
    Option legacy.ListUserResult × Option Error

/-- The list options of a request: page limit and continuation token. -/
structure internalversion.ListOptions where
  Limit : Int
  Continue : String
deriving DecidableEq, Repr

/-- The options of a single-item read; `Get` does not look at them. -/
structure metav1.GetOptions where
  ResourceVersion : String := ""
deriving DecidableEq, Repr

/-- The resource descriptor behind the package variable `resource`
(`iamv0.UserResourceInfo`), whose value is not in the source: the functions
below take it as a parameter. -/
structure utils.ResourceInfo where
  resourceName : String
deriving DecidableEq, Repr

/-- The name of the resource kind, `resource.GetName()`. -/
def utils.ResourceInfo.GetName (r : utils.ResourceInfo) : String :=
  r.resourceName

/-- Modelled from the spec: `resource.NewNotFound(name)`, the NotFound
condition that carries the requested identifier. -/
def utils.ResourceInfo.NewNotFound (r : utils.ResourceInfo) (name : String) : Error :=
  Error.NotFound r.resourceName name

/-- Modelled from the spec: `request.NamespaceInfoFrom(ctx, true)`, the
namespace scope resolved from the request context, or the resolution error. -/
def request.NamespaceInfoFrom (ctx : context.Context) : Except Error claims.NamespaceInfo :=
  ctx.namespaceInfo

/-! ## The metadata accessor -/

/-- Modelled from the spec: `SetUpdatedTimestamp` of the metadata accessor
sets the updated-timestamp system field. -/
def utils.SetUpdatedTimestamp (item : iamv0alpha.User) (v : Option time.Time) : iamv0alpha.User :=
  { item with ObjectMeta := { item.ObjectMeta with UpdatedTimestamp := v } }

/-- Modelled from the spec: `SetAnnotation(key, value)` of the metadata
accessor sets one annotation, replacing an earlier value of the same key. -/
def utils.SetAnnotation (item : iamv0alpha.User) (key val : String) : iamv0alpha.User :=
  { item with ObjectMeta :=
      { item.ObjectMeta with
        Annotations := (item.ObjectMeta.Annotations.filter (fun kv => kv.1 ≠ key)) ++ [(key, val)] } }

/-- Modelled from the spec: `SetDeprecatedInternalID(id)` of the metadata
accessor sets the deprecated internal numeric identifier. -/
def utils.SetDeprecatedInternalID (item : iamv0alpha.User) (id : Int) : iamv0alpha.User :=
  { item with ObjectMeta := { item.ObjectMeta with DeprecatedInternalID := id } }

/-! ## Helpers of package `common` -/

/-- Modelled from the spec: `common.OptionalFormatInt`, decimal text for a
non-zero value and the empty string for zero. -/
def common.OptionalFormatInt (num : Int) : String :=
  if num ≠ 0 then String.mk (intDecimal num) else ""

/-- Modelled from the spec: `common.List`, the pagination coordinator. It
resolves the namespace scope (a resolution error is surfaced unmodified),
asks the list function for one page (its error is propagated unmodified, no
partial results), drops the items the authorization check denies and keeps
the page's resource version and continuation as the list function gave
them. The page size is not adjusted and no further page is fetched. -/
def common.List {T : Type} (getName : T → String) (ctx : context.Context)
    (resourceName : String) (ac : claims.AccessClient) (p : common.Pagination)
    (fn : context.Context → claims.NamespaceInfo → common.Pagination →
      Result (common.ListResponse T)) : Result (common.ListResponse T) :=
  match request.NamespaceInfoFrom ctx with
  | .error err => .err err
  | .ok ns =>
    match fn ctx ns p with
    | .err err => .err err
    | .panic => .panic
    | .ok first =>
      .ok { Items := first.Items.filter (fun item => ac.CheckAccess ns resourceName (getName item))
            RV := first.RV
            Continue := first.Continue }

/-! ## The adapter: `store.go` -/

/-- The annotation key of the last-seen timestamp. -/
def AnnoKeyLastSeenAt : String := "iam.grafana.app/lastSeenAt"

/-- The adapter over the legacy store and the access client. -/
structure LegacyStore where
  store : legacy.LegacyIdentityStore
  ac : claims.AccessClient

/-- Constructor `NewLegacyStore`. -/
def NewLegacyStore (store : legacy.LegacyIdentityStore) (ac : claims.AccessClient) : LegacyStore :=
  { store := store, ac := ac }

/-- The adapter's resources are namespace scoped (namespace == org). -/
def LegacyStore.NamespaceScoped (_s : LegacyStore) : Bool := true

/-- Last-seen text `formatTime`: RFC 3339 in UTC for a non-nil time whose
Unix seconds are not zero, the empty string otherwise. -/
def formatTime (v : Option time.Time) : String :=
  match v with
  | some t => if t.Unix ≠ 0 then t.UTC.FormatRFC3339 else ""
  | none => ""

/-- The record projector `toUserItem`: the typed resource first, then the
three writes through the metadata accessor. -/
def toUserItem (u : user.User) (ns : String) : iamv0alpha.User :=
  let item : iamv0alpha.User :=
    { ObjectMeta :=
        { Name := u.UID
          Namespace := ns
          ResourceVersion := fmt.Sprintf_d u.Updated.UnixMilli
          CreationTimestamp := u.Created }
      Spec :=
        { Name := u.Name
          Login := u.Login
          Email := u.Email
          EmailVerified := u.EmailVerified
          Disabled := u.IsDisabled
          GrafanaAdmin := u.IsAdmin
          Provisioned := u.IsProvisioned } }
  let item := utils.SetUpdatedTimestamp item (some u.Updated)
  let item := utils.SetAnnotation item AnnoKeyLastSeenAt (formatTime (some u.LastSeenAt))
  let item := utils.SetDeprecatedInternalID item u.ID
  item

/-- The list function that `List` hands to `common.List`: one `ListUsers`
query with only the pagination set, each returned record projected in turn
and appended, the store's resource version and continuation copied. A nil
result with a nil error is dereferenced, which panics. -/
def LegacyStore.listFn (s : LegacyStore) (ctx : context.Context) (ns : claims.NamespaceInfo)
    (p : common.Pagination) : Result (common.ListResponse iamv0alpha.User) :=
  match s.store.ListUsers ctx ns { Pagination := p } with
  | (_, some err) => .err err
  | (none, none) => .panic
  | (some found, none) =>
    let users := found.Users.foldl (fun users u => users ++ [toUserItem u ns.Value]) []
    .ok { Items := users, RV := found.RV, Continue := found.Continue }

/-- The operation `LegacyStore.List`. The translation of the list options
into a `common.Pagination` (`common.PaginationFromListOptions`, not in the
source) is the parameter `paginationFromListOptions`. -/
def LegacyStore.List (resource : utils.ResourceInfo)
    (paginationFromListOptions : internalversion.ListOptions → common.Pagination)
    (s : LegacyStore) (ctx : context.Context) (options : internalversion.ListOptions) :
    Result iamv0alpha.UserList :=
  match common.List (fun (item : iamv0alpha.User) => item.ObjectMeta.Name) ctx resource.GetName s.ac
      (paginationFromListOptions options) s.listFn with
  | .err err => .err err
  | .panic => .panic
  | .ok res =>
    .ok { Items := res.Items
          Continue := common.OptionalFormatInt res.Continue
          ResourceVersion := common.OptionalFormatInt res.RV }

/-- The operation `LegacyStore.Get`: a one-record query by UID and
organisation; a nil result, an error or an empty page all become NotFound
for the requested name. -/
def LegacyStore.Get (resource : utils.ResourceInfo) (s : LegacyStore) (ctx : context.Context)
    (name : String) (_options : metav1.GetOptions) : Result iamv0alpha.User :=
  match request.NamespaceInfoFrom ctx with
  | .error err => .err err
  | .ok ns =>
    let (found, err) := s.store.ListUsers ctx ns
      { OrgID := ns.OrgID, UID := name, Pagination := { Limit := 1, Continue := 0 } }
    match found, err with
    | none, _ => .err (resource.NewNotFound name)
    | some _, some _ => .err (resource.NewNotFound name)
    | some found, none =>
      if found.Users.length < 1 then .err (resource.NewNotFound name)
      else
        match found.Users[0]? with
        | some u => .ok (toUserItem u ns.Value)
        | none => .panic

/-! ## Sample data -/

/-- A record with the given identity and last-updated time; the remaining
fields are fixed. -/
def sampleUser (id : Int) (uid : String) (updated : time.Time) : user.User :=
  { ID := id
    UID := uid
    OrgID := 1
    Name := "Ada Lovelace"
    Login := "ada"
    Email := "ada@example.org"
    EmailVerified := true
    IsDisabled := false
    IsAdmin := false
    IsProvisioned := false
    Created := { sec := 1700000000, nsec := 0, offset := 0 }
    Updated := updated
    LastSeenAt := { sec := 1704164645, nsec := 0, offset := 0 } }

/-- Updated at 2024-01-02T03:04:05Z exactly. -/
def userEarly : user.User :=
  sampleUser 1 "u-early" { sec := 1704164645, nsec := 0, offset := 0 }

/-- Updated 999999 nanoseconds after `userEarly`, within the same millisecond. -/
def userSameMilli : user.User :=
  sampleUser 2 "u-same-milli" { sec := 1704164645, nsec := 999999, offset := 0 }

/-- Updated one millisecond after `userEarly`. -/
def userNextMilli : user.User :=
  sampleUser 3 "u-next-milli" { sec := 1704164645, nsec := 1000000, offset := 0 }

/-! ## Sample stores -/

/-- The namespace scope of the samples. -/
def sampleNs : claims.NamespaceInfo := { Value := "default", OrgID := 1 }

/-- A request context whose namespace resolves to `sampleNs`. -/
def sampleCtx : context.Context := { namespaceInfo := .ok sampleNs }

/-- The resource descriptor of the samples. -/
def sampleResource : utils.ResourceInfo := { resourceName := "users" }

/-- The rows of the sample store, in its order. -/
def sampleRows : List user.User := [userEarly, userSameMilli, userNextMilli]

/-- An in-memory store over `sampleRows`: it filters by UID when one is
asked for, returns at most `Limit` rows, and answers with a fixed resource
version and cursor. -/
def sampleStore : legacy.LegacyIdentityStore :=
  { ListUsers := fun _ _ q =>
      let rows := sampleRows.filter (fun u => decide (q.UID = "") || decide (u.UID = q.UID))
      (some { Users := rows.take q.Pagination.Limit.toNat, Continue := 4, RV := 77 }, none) }

/-- A store whose every query fails. -/
def failingStore : legacy.LegacyIdentityStore :=
  { ListUsers := fun _ _ _ => (none, some (Error.Other "database is locked")) }

/-- An access client that allows everything. -/
def allowAll : claims.AccessClient := { CheckAccess := fun _ _ _ => true }

/-- An access client that denies everything. -/
def denyAll : claims.AccessClient := { CheckAccess := fun _ _ _ => false }

/-- An access client that denies exactly the item named `u-same-milli`. -/
def denySecond : claims.AccessClient :=
  { CheckAccess := fun _ _ name => decide (name ≠ "u-same-milli") }

/-- A translation of list options for the samples: the limit as given, the
cursor at the start. -/
def samplePagination (options : internalversion.ListOptions) : common.Pagination :=
  { Limit := options.Limit, Continue := 0 }

/-! ## Decimal text: value, injectivity and order -/

theorem digitsValue_append_singleton (ds : List Nat) (d : Nat) :
    digitsValue (ds ++ [d]) = digitsValue ds * 10 + d := by
  induction ds with
  | nil => simp [digitsValue]
  | cons a ds ih =>
    show a * 10 ^ (ds ++ [d]).length + digitsValue (ds ++ [d])
      = (a * 10 ^ ds.length + digitsValue ds) * 10 + d
    rw [ih, List.length_append, List.length_singleton, pow_succ]
    ring

theorem decimalDigits_spec :
    ∀ (fuel n : Nat), n < fuel →
      digitsValue (decimalDigits fuel n) = n ∧
      (∀ d ∈ decimalDigits fuel n, d < 10) ∧ decimalDigits fuel n ≠ [] := by
  intro fuel
  induction fuel with
  | zero => intro n h; omega
  | succ fuel ih =>
    intro n h
    unfold decimalDigits
    by_cases hn : n < 10
    · simp [hn, digitsValue]
    · have hlt : n / 10 < fuel := by omega
      obtain ⟨hv, hd, _⟩ := ih (n / 10) hlt
      simp only [hn, if_false]
      refine ⟨?_, ?_, by simp⟩
      · rw [digitsValue_append_singleton, hv]; omega
      · intro d hmem
        rcases List.mem_append.1 hmem with h1 | h1
        · exact hd d h1
        · simp at h1; omega

theorem digitsValue_lt_pow (ds : List Nat) (h : ∀ d ∈ ds, d < 10) :
    digitsValue ds < 10 ^ ds.length := by
  induction ds with
  | nil => simp [digitsValue]
  | cons a ds ih =>
    have ha : a < 10 := h a (List.mem_cons_self _ _)
    have hds := ih (fun d hd => h d (List.mem_cons_of_mem _ hd))
    simp only [digitsValue, List.length_cons, pow_succ]
    nlinarith

theorem charDigit_digitChar (d : Nat) (h : d < 10) : charDigit (digitChar d) = d := by
  interval_cases d <;> rfl

theorem digitChar_isDigit (d : Nat) : '0' ≤ digitChar d ∧ digitChar d ≤ '9' := by
  unfold digitChar
  split <;> decide

theorem digitChar_ne_minus (d : Nat) : digitChar d ≠ '-' := by
  unfold digitChar
  split <;> decide

theorem digitChar_lt (a b : Nat) (ha : a < 10) (hb : b < 10) (h : a < b) :
    digitChar a < digitChar b := by
  interval_cases a <;> interval_cases b <;> first | omega | decide

theorem map_charDigit_digitChar (ds : List Nat) (h : ∀ d ∈ ds, d < 10) :
    (ds.map digitChar).map charDigit = ds := by
  induction ds with
  | nil => rfl
  | cons a ds ih =>
    simp only [List.map_cons]
    rw [charDigit_digitChar a (h a (List.mem_cons_self _ _)),
      ih (fun d hd => h d (List.mem_cons_of_mem _ hd))]

theorem natDecimal_value (n : Nat) : digitsValue ((natDecimal n).map charDigit) = n := by
  obtain ⟨hv, hd, _⟩ := decimalDigits_spec (n + 1) n (Nat.lt_succ_self n)
  unfold natDecimal
  rw [map_charDigit_digitChar _ hd, hv]

theorem natDecimal_ne_nil (n : Nat) : natDecimal n ≠ [] := by
  obtain ⟨_, _, hne⟩ := decimalDigits_spec (n + 1) n (Nat.lt_succ_self n)
  unfold natDecimal
  simpa using hne

theorem natDecimal_isDigit (n : Nat) : ∀ c ∈ natDecimal n, '0' ≤ c ∧ c ≤ '9' := by
  intro c hc
  unfold natDecimal at hc
  obtain ⟨d, _, rfl⟩ := List.mem_map.1 hc
  exact digitChar_isDigit d

theorem natDecimal_head_ne_minus (n : Nat) :
    ∃ c cs, natDecimal n = c :: cs ∧ c ≠ '-' := by
  cases h : natDecimal n with
  | nil => exact absurd h (natDecimal_ne_nil n)
  | cons c cs =>
    refine ⟨c, cs, rfl, ?_⟩
    have hc : c ∈ natDecimal n := by rw [h]; exact List.mem_cons_self _ _
    have := natDecimal_isDigit n c hc
    intro hcm
    subst hcm
    exact absurd this.1 (by decide)

/-- Reading back the text of `%d` gives the integer that was printed. -/
theorem parseDecimal_Sprintf_d (x : Int) : parseDecimal (fmt.Sprintf_d x) = x := by
  unfold parseDecimal fmt.Sprintf_d intDecimal
  by_cases hx : x < 0
  · simp only [hx, if_true]
    rw [natDecimal_value]
    omega
  · simp only [hx, if_false]
    obtain ⟨c, cs, hcs, hc⟩ := natDecimal_head_ne_minus x.natAbs
    have hval := natDecimal_value x.natAbs
    rw [hcs] at hval ⊢
    split
    · rename_i rest heq
      simp only [List.cons.injEq] at heq
      exact absurd heq.1 hc
    · rw [hval]; omega

/-- The text of `%d` determines the integer. -/
theorem Sprintf_d_injective (x y : Int) (h : fmt.Sprintf_d x = fmt.Sprintf_d y) : x = y := by
  have := congrArg parseDecimal h
  rwa [parseDecimal_Sprintf_d, parseDecimal_Sprintf_d] at this

/-- Among digit lists of one length, the smaller value is the smaller text. -/
theorem map_digitChar_lt :
    ∀ (ds es : List Nat), ds.length = es.length → (∀ d ∈ ds, d < 10) → (∀ e ∈ es, e < 10) →
      digitsValue ds < digitsValue es → ds.map digitChar < es.map digitChar := by
  intro ds
  induction ds with
  | nil =>
    intro es hlen _ _ hlt
    cases es with
    | nil => simp [digitsValue] at hlt
    | cons b es => simp at hlen
  | cons a ds ih =>
    intro es hlen hd he hlt
    cases es with
    | nil => simp at hlen
    | cons b es =>
      have hlen2 : ds.length = es.length := by simpa using hlen
      have ha : a < 10 := hd a (List.mem_cons_self _ _)
      have hb : b < 10 := he b (List.mem_cons_self _ _)
      have hds : ∀ d ∈ ds, d < 10 := fun d h => hd d (List.mem_cons_of_mem _ h)
      have hes : ∀ e ∈ es, e < 10 := fun e h => he e (List.mem_cons_of_mem _ h)
      have h1 := digitsValue_lt_pow ds hds
      have h2 := digitsValue_lt_pow es hes
      simp only [digitsValue, hlen2] at hlt
      rw [hlen2] at h1
      simp only [List.map_cons]
      rcases Nat.lt_trichotomy a b with hab | hab | hab
      · exact List.Lex.rel (digitChar_lt a b ha hb hab)
      · subst hab
        have hlt2 : digitsValue ds < digitsValue es := by omega
        exact List.Lex.cons (ih es hlen2 hds hes hlt2)
      · exfalso
        have : (b + 1) * 10 ^ es.length ≤ a * 10 ^ es.length :=
          Nat.mul_le_mul_right _ hab
        nlinarith

theorem natDecimal_lt (a b : Nat) (hlen : (natDecimal a).length = (natDecimal b).length)
    (h : a < b) : natDecimal a < natDecimal b := by
  obtain ⟨hva, hda, _⟩ := decimalDigits_spec (a + 1) a (Nat.lt_succ_self a)
  obtain ⟨hvb, hdb, _⟩ := decimalDigits_spec (b + 1) b (Nat.lt_succ_self b)
  unfold natDecimal at hlen ⊢
  simp only [List.length_map] at hlen
  exact map_digitChar_lt _ _ hlen hda hdb (by rw [hva, hvb]; exact h)

/-- A `%d` text that is a numeric string was printed from a non-negative
integer. -/
theorem Sprintf_d_numeric (x : Int) (h : isNumericString (fmt.Sprintf_d x) = true) : 0 ≤ x := by
  by_contra hx
  have hneg : x < 0 := by omega
  unfold isNumericString fmt.Sprintf_d intDecimal at h
  simp only [hneg, if_true] at h
  simp at h

/-- A non-negative integer prints as a numeric string. -/
theorem isNumericString_Sprintf_d (x : Int) (h : 0 ≤ x) :
    isNumericString (fmt.Sprintf_d x) = true := by
  have hneg : ¬ x < 0 := by omega
  unfold isNumericString fmt.Sprintf_d intDecimal
  simp only [hneg, if_false, Bool.and_eq_true, Bool.not_eq_true', List.all_eq_true,
    decide_eq_true_eq]
  refine ⟨?_, fun c hc => natDecimal_isDigit _ c hc⟩
  cases hnil : natDecimal x.natAbs with
  | nil => exact absurd hnil (natDecimal_ne_nil _)
  | cons c cs => rfl

/-- Order of equal-length numeric `%d` texts follows the order of the integers. -/
theorem Sprintf_d_lt (x y : Int) (hx : isNumericString (fmt.Sprintf_d x) = true)
    (hy : isNumericString (fmt.Sprintf_d y) = true)
    (hlen : (fmt.Sprintf_d x).length = (fmt.Sprintf_d y).length) (h : x < y) :
    fmt.Sprintf_d x < fmt.Sprintf_d y := by
  have hx0 := Sprintf_d_numeric x hx
  have hy0 := Sprintf_d_numeric y hy
  have hxn : ¬ x < 0 := by omega
  have hyn : ¬ y < 0 := by omega
  have hlen2 : (intDecimal x).length = (intDecimal y).length := hlen
  refine String.lt_iff_toList_lt.2 ?_
  show intDecimal x < intDecimal y
  unfold intDecimal at hlen2 ⊢
  simp only [hxn, hyn, if_false] at hlen2 ⊢
  exact natDecimal_lt _ _ hlen2 (by omega)

theorem wrapInt64_of_fits (x : Int) (h1 : -(2 : Int) ^ 63 ≤ x) (h2 : x < 2 ^ 63) :
    wrapInt64 x = x := by
  unfold wrapInt64
  norm_num at h1 h2 ⊢
  omega

theorem UnixMilli_of_representable (t : time.Time) (h : t.MilliRepresentable) :
    t.UnixMilli = t.sec * 1000 + (t.nsec / 1000000 : Nat) :=
  wrapInt64_of_fits _ h.1 h.2

/-- Within the representable range `UnixMilli` never decreases with time. -/
theorem UnixMilli_mono (t u : time.Time) (ht : t.WellFormed) (hu : u.WellFormed)
    (hrt : t.MilliRepresentable) (hru : u.MilliRepresentable) (h : t.Before u = true) :
    t.UnixMilli ≤ u.UnixMilli := by
  rw [UnixMilli_of_representable t hrt, UnixMilli_of_representable u hru]
  unfold time.Time.Before at h
  simp only [Bool.or_eq_true, Bool.and_eq_true, decide_eq_true_eq] at h
  have h3 := ht.2.2
  have h4 := hu.2.2
  rcases h with h | ⟨h, h5⟩
  · omega
  · omega

/-! ## The civil calendar: the date computed is the date denoted -/

theorem ediv_eq_of_bounds (a b q : Int) (hb : 0 < b) (h1 : q * b ≤ a) (h2 : a < (q + 1) * b) :
    a / b = q := by
  have hle : q ≤ a / b := Int.le_ediv_of_mul_le hb h1
  have hlt : a / b < q + 1 := Int.ediv_lt_of_lt_mul hb h2
  omega

theorem dayOfEra_decompose (doe : Int) (h0 : 0 ≤ doe) (h1 : doe ≤ 146096) :
    ∃ c q k r : Int, 0 ≤ c ∧ c ≤ 3 ∧ 0 ≤ q ∧ q ≤ 24 ∧ 0 ≤ k ∧ k ≤ 3 ∧ 0 ≤ r ∧ r ≤ 365 ∧
      doe = 36524 * c + 1461 * q + 365 * k + r ∧
      (r = 365 → k = 3 ∧ (q = 24 → c = 3)) := by
  obtain ⟨c, hc0, hc3, hc1, hc2⟩ : ∃ c : Int, 0 ≤ c ∧ c ≤ 3 ∧ 0 ≤ doe - 36524 * c ∧
      (doe - 36524 * c ≤ 36523 ∨ (c = 3 ∧ doe - 36524 * c = 36524)) := by
    by_cases h : doe = 146096
    · exact ⟨3, by omega, by omega, by omega, by omega⟩
    · exact ⟨doe / 36524, by omega, by omega, by omega, by omega⟩
  obtain ⟨x, hx⟩ : ∃ x : Int, x = doe - 36524 * c := ⟨_, rfl⟩
  rw [← hx] at hc1 hc2
  obtain ⟨q, hq0, hq3, hq1, hq2⟩ : ∃ q : Int, 0 ≤ q ∧ q ≤ 24 ∧ 0 ≤ x - 1461 * q ∧
      (x - 1461 * q ≤ 1459 ∨ (x - 1461 * q = 1460 ∧ (q = 24 → c = 3))) := by
    by_cases h : x = 36524
    · exact ⟨24, by omega, by omega, by omega, by omega⟩
    · exact ⟨x / 1461, by omega, by omega, by omega, by omega⟩
  obtain ⟨w, hw⟩ : ∃ w : Int, w = x - 1461 * q := ⟨_, rfl⟩
  rw [← hw] at hq1 hq2
  obtain ⟨k, hk0, hk3, hk1, hk2⟩ : ∃ k : Int, 0 ≤ k ∧ k ≤ 3 ∧ 0 ≤ w - 365 * k ∧
      (w - 365 * k ≤ 364 ∨ (w - 365 * k = 365 ∧ k = 3)) := by
    by_cases h : w = 1460
    · exact ⟨3, by omega, by omega, by omega, by omega⟩
    · exact ⟨w / 365, by omega, by omega, by omega, by omega⟩
  refine ⟨c, q, k, w - 365 * k, hc0, hc3, hq0, hq3, hk0, hk3, hk1, by omega, by omega, ?_⟩
  intro hr
  omega

theorem yearOfEra_spec (doe : Int) (h0 : 0 ≤ doe) (h1 : doe ≤ 146096) :
    ∃ y r : Int, 0 ≤ y ∧ y ≤ 399 ∧ 0 ≤ r ∧ r ≤ 365 ∧
      (doe - doe / 1460 + doe / 36524 - doe / 146096) / 365 = y ∧
      doe = 365 * y + y / 4 - y / 100 + r ∧
      (r = 365 → (y + 1) % 4 = 0 ∧ ((y + 1) % 100 ≠ 0 ∨ y = 399)) := by
  obtain ⟨c, q, k, r, hc0, hc3, hq0, hq3, hk0, hk3, hr0, hr1, hdoe, hleap⟩ :=
    dayOfEra_decompose doe h0 h1
  obtain ⟨e, he0, he1, he2, he3⟩ : ∃ e : Int, 0 ≤ e ∧ e ≤ 1 ∧
      (e = 0 → 24 * c + q + 365 * k + r ≤ 1459) ∧ (e = 1 → 1460 ≤ 24 * c + q + 365 * k + r) := by
    by_cases h : 1460 ≤ 24 * c + q + 365 * k + r
    · exact ⟨1, by omega, by omega, by omega, by omega⟩
    · exact ⟨0, by omega, by omega, by omega, by omega⟩
  obtain ⟨d, hd0, hd1, hd2, hd3⟩ : ∃ d : Int, 0 ≤ d ∧ d ≤ 1 ∧
      (d = 0 → doe ≤ 146095) ∧ (d = 1 → doe = 146096) := by
    by_cases h : doe = 146096
    · exact ⟨1, by omega, by omega, by omega, by omega⟩
    · exact ⟨0, by omega, by omega, by omega, by omega⟩
  have hb : doe / 1460 = 25 * c + q + e :=
    ediv_eq_of_bounds _ _ _ (by norm_num) (by omega) (by omega)
  have hdd : doe / 146096 = d :=
    ediv_eq_of_bounds _ _ _ (by norm_num) (by omega) (by omega)
  have hcc : doe / 36524 = c + d :=
    ediv_eq_of_bounds _ _ _ (by norm_num) (by omega) (by omega)
  have hy : (doe - doe / 1460 + doe / 36524 - doe / 146096) / 365 = 100 * c + 4 * q + k := by
    rw [hb, hcc, hdd]
    exact ediv_eq_of_bounds _ _ _ (by norm_num) (by omega) (by omega)
  have hy4 : (100 * c + 4 * q + k) / 4 = 25 * c + q :=
    ediv_eq_of_bounds _ _ _ (by norm_num) (by omega) (by omega)
  have hy100 : (100 * c + 4 * q + k) / 100 = c :=
    ediv_eq_of_bounds _ _ _ (by norm_num) (by omega) (by omega)
  refine ⟨100 * c + 4 * q + k, r, by omega, by omega, hr0, hr1, hy, ?_, ?_⟩
  · rw [hy4, hy100]
    omega
  · intro h365
    have hl := hleap h365
    have hk : k = 3 := hl.1
    have hmod4 : (100 * c + 4 * q + k + 1) % 4 = 0 := by
      rw [hk]
      have : 100 * c + 4 * q + 3 + 1 = (25 * c + q + 1) * 4 := by ring
      rw [this]
      exact Int.mul_emod_left _ _
    refine ⟨hmod4, ?_⟩
    by_cases hq : q = 24
    · right
      have := hl.2 hq
      omega
    · left
      intro hmod
      have h100 : (100 * c + 4 * q + k + 1) / 100 = c :=
        ediv_eq_of_bounds _ _ _ (by norm_num) (by omega) (by omega)
      have := Int.ediv_add_emod (100 * c + 4 * q + k + 1) 100
      rw [h100, hmod] at this
      omega

theorem leapYears_through (y : Int) :
    (y - 1) / 4 - (y - 1) / 100 + (y - 1) / 400 + (if rfc3339.isLeapYear y then 1 else 0)
      = y / 4 - y / 100 + y / 400 := by
  simp only [rfc3339.isLeapYear, Bool.and_eq_true, Bool.or_eq_true, decide_eq_true_eq]
  split <;> omega

theorem leapYears_era (y0 era : Int) (hy0 : 0 ≤ y0) (hy1 : y0 ≤ 399) :
    (y0 + era * 400) / 4 - (y0 + era * 400) / 100 + (y0 + era * 400) / 400
      = y0 / 4 - y0 / 100 + 97 * era := by
  omega

theorem leapYear_era (y0 era : Int) :
    rfc3339.isLeapYear (y0 + era * 400 + 1) = true ↔
      ((y0 + 1) % 4 = 0 ∧ ((y0 + 1) % 100 ≠ 0 ∨ (y0 + 1) % 400 = 0)) := by
  simp only [rfc3339.isLeapYear, Bool.and_eq_true, Bool.or_eq_true, decide_eq_true_eq]
  omega

theorem daysBeforeYear_january (y0 era : Int) (hy0 : 0 ≤ y0) (hy1 : y0 ≤ 399) :
    rfc3339.daysBeforeYear (y0 + era * 400 + 1)
      = 365 * (y0 + era * 400 + 1 - 1970) + (y0 / 4 - y0 / 100 + 97 * era) - 477 := by
  unfold rfc3339.daysBeforeYear
  rw [add_sub_cancel_right, leapYears_era y0 era hy0 hy1]

theorem daysBeforeYear_march (y0 era : Int) (hy0 : 0 ≤ y0) (hy1 : y0 ≤ 399) :
    rfc3339.daysBeforeYear (y0 + era * 400) +
        (if rfc3339.isLeapYear (y0 + era * 400) = true then 1 else 0)
      = 365 * (y0 + era * 400 - 1970) + (y0 / 4 - y0 / 100 + 97 * era) - 477 := by
  have h1 := leapYears_through (y0 + era * 400)
  rw [leapYears_era y0 era hy0 hy1] at h1
  unfold rfc3339.daysBeforeYear
  linarith

theorem civilFromDays_core (z era y0 r mp : Int) (hy0 : 0 ≤ y0) (hy1 : y0 ≤ 399) (hr0 : 0 ≤ r)
    (hr1 : r ≤ 365)
    (hz : z + 719468 - era * 146097 = 365 * y0 + y0 / 4 - y0 / 100 + r)
    (hleap : r = 365 → (y0 + 1) % 4 = 0 ∧ ((y0 + 1) % 100 ≠ 0 ∨ y0 = 399))
    (hmp : mp = (5 * r + 2) / 153) :
    1 ≤ (if mp < 10 then mp + 3 else mp - 9) ∧ (if mp < 10 then mp + 3 else mp - 9) ≤ 12 ∧
    1 ≤ r - (153 * mp + 2) / 5 + 1 ∧
    r - (153 * mp + 2) / 5 + 1 ≤
      rfc3339.daysInMonth (y0 + era * 400 + (if (if mp < 10 then mp + 3 else mp - 9) ≤ 2 then 1 else 0))
        (if mp < 10 then mp + 3 else mp - 9) ∧
    rfc3339.unixDays (y0 + era * 400 + (if (if mp < 10 then mp + 3 else mp - 9) ≤ 2 then 1 else 0))
      (if mp < 10 then mp + 3 else mp - 9) (r - (153 * mp + 2) / 5 + 1) = z := by
  have hm0 : 0 ≤ mp := by omega
  have hm1 : mp ≤ 11 := by omega
  have hlo : 153 * mp ≤ 5 * r + 2 := by omega
  have hhi : 5 * r + 2 < 153 * mp + 153 := by omega
  clear hmp
  have hleapB : r = 365 → rfc3339.isLeapYear (y0 + era * 400 + 1) = true := by
    intro h
    have := hleap h
    rw [leapYear_era]
    omega
  clear hleap
  have hDJ := daysBeforeYear_january y0 era hy0 hy1
  have hDM := daysBeforeYear_march y0 era hy0 hy1
  have hz2 : z + 719468 - era * 146097 = 365 * y0 + (y0 / 4 - y0 / 100) + r := by
    rw [hz]; ring
  clear hz
  generalize y0 / 4 - y0 / 100 = A at hDJ hDM hz2
  generalize hI : (if rfc3339.isLeapYear (y0 + era * 400) = true then (1 : Int) else 0) = I at hDM
  generalize hBJ : rfc3339.daysBeforeYear (y0 + era * 400 + 1) = BJ at hDJ
  generalize hBM : rfc3339.daysBeforeYear (y0 + era * 400) = BM at hDM
  interval_cases mp
  case «11» =>
    simp only [rfc3339.daysInMonth, rfc3339.unixDays, rfc3339.daysBeforeMonth]
    norm_num
    rw [hBJ]
    refine ⟨by omega, ?_, by omega⟩
    split_ifs with h
    · omega
    · have : r ≠ 365 := fun h2 => h (hleapB h2)
      omega
  all_goals
    simp only [rfc3339.daysInMonth, rfc3339.unixDays, rfc3339.daysBeforeMonth]
    norm_num
    first
      | (rw [hBJ]; refine ⟨by omega, by omega, by omega⟩)
      | (rw [hBM, hI]; refine ⟨by omega, by omega, by omega⟩)

theorem civilFromDays_spec (z : Int) :
    1 ≤ (time.civilFromDays z).2.1 ∧ (time.civilFromDays z).2.1 ≤ 12 ∧
    1 ≤ (time.civilFromDays z).2.2 ∧
    (time.civilFromDays z).2.2 ≤
      rfc3339.daysInMonth (time.civilFromDays z).1 (time.civilFromDays z).2.1 ∧
    rfc3339.unixDays (time.civilFromDays z).1 (time.civilFromDays z).2.1
      (time.civilFromDays z).2.2 = z := by
  obtain ⟨era, hera⟩ : ∃ era : Int, era = (z + 719468) / 146097 := ⟨_, rfl⟩
  obtain ⟨doe, hdoe⟩ : ∃ doe : Int, doe = z + 719468 - era * 146097 := ⟨_, rfl⟩
  have h0 : 0 ≤ doe := by omega
  have h1 : doe ≤ 146096 := by omega
  obtain ⟨y0, r, hy0, hy1, hr0, hr1, hyoe, hd, hleap⟩ := yearOfEra_spec doe h0 h1
  have hdoy : doe - (365 * y0 + y0 / 4 - y0 / 100) = r := by rw [hd]; ring
  simp only [time.civilFromDays, ← hera, ← hdoe, hyoe, hdoy]
  exact civilFromDays_core z era y0 r _ hy0 hy1 hr0 hr1 (by rw [← hdoe, hd]) hleap rfl

theorem decimalDigits_fuel :
    ∀ (f1 f2 n : Nat), n < f1 → n < f2 → decimalDigits f1 n = decimalDigits f2 n := by
  intro f1
  induction f1 with
  | zero => intro f2 n h; omega
  | succ f1 ih =>
    intro f2 n h1 h2
    cases f2 with
    | zero => omega
    | succ f2 =>
      unfold decimalDigits
      by_cases hn : n < 10
      · simp [hn]
      · simp only [hn, if_false]
        rw [ih f2 (n / 10) (by omega) (by omega)]

theorem natDecimal_small (n : Nat) (h : n < 10) : natDecimal n = [digitChar n] := by
  simp [natDecimal, decimalDigits, h]

theorem natDecimal_step (n : Nat) (h : 10 ≤ n) :
    natDecimal n = natDecimal (n / 10) ++ [digitChar (n % 10)] := by
  have hn : ¬ n < 10 := by omega
  unfold natDecimal
  rw [show decimalDigits (n + 1) n = decimalDigits n (n / 10) ++ [n % 10] by
    simp [decimalDigits, hn]]
  rw [decimalDigits_fuel n (n / 10 + 1) (n / 10) (by omega) (by omega)]
  simp

theorem appendInt_two (x : Int) (h0 : 0 ≤ x) (h1 : x < 100) :
    time.appendInt x 2 = [digitChar (x.toNat / 10), digitChar (x.toNat % 10)] := by
  obtain ⟨n, rfl⟩ := Int.eq_ofNat_of_zero_le h0
  have hn : n < 100 := by omega
  have hneg : ¬ ((n : Int) < 0) := by omega
  simp only [time.appendInt, hneg, if_false, Int.natAbs_ofNat, Int.toNat_ofNat]
  by_cases h10 : n < 10
  · rw [natDecimal_small n h10]
    have : n / 10 = 0 := by omega
    have h2 : n % 10 = n := by omega
    rw [this, h2]
    rfl
  · rw [natDecimal_step n (by omega), natDecimal_small (n / 10) (by omega)]
    rfl

theorem appendInt_four (x : Int) (h0 : 0 ≤ x) (h1 : x < 10000) :
    time.appendInt x 4 = [digitChar (x.toNat / 1000), digitChar (x.toNat / 100 % 10),
      digitChar (x.toNat / 10 % 10), digitChar (x.toNat % 10)] := by
  obtain ⟨n, rfl⟩ := Int.eq_ofNat_of_zero_le h0
  have hn : n < 10000 := by omega
  have hneg : ¬ ((n : Int) < 0) := by omega
  simp only [time.appendInt, hneg, if_false, Int.natAbs_ofNat, Int.toNat_ofNat]
  by_cases h10 : n < 10
  · rw [natDecimal_small n h10]
    have e1 : n / 1000 = 0 := by omega
    have e2 : n / 100 % 10 = 0 := by omega
    have e3 : n / 10 % 10 = 0 := by omega
    have e4 : n % 10 = n := by omega
    rw [e1, e2, e3, e4]
    rfl
  · by_cases h100 : n < 100
    · rw [natDecimal_step n (by omega), natDecimal_small (n / 10) (by omega)]
      have e1 : n / 1000 = 0 := by omega
      have e2 : n / 100 % 10 = 0 := by omega
      have e3 : n / 10 % 10 = n / 10 := by omega
      rw [e1, e2, e3]
      rfl
    · by_cases h1000 : n < 1000
      · rw [natDecimal_step n (by omega), natDecimal_step (n / 10) (by omega),
          natDecimal_small (n / 10 / 10) (by omega)]
        have e1 : n / 1000 = 0 := by omega
        have e2 : n / 100 % 10 = n / 10 / 10 := by omega
        have e3 : n / 10 % 10 = n / 10 % 10 := rfl
        rw [e1, e2]
        rfl
      · rw [natDecimal_step n (by omega), natDecimal_step (n / 10) (by omega),
          natDecimal_step (n / 10 / 10) (by omega),
          natDecimal_small (n / 10 / 10 / 10) (by omega)]
        have e1 : n / 1000 = n / 10 / 10 / 10 := by omega
        have e2 : n / 100 % 10 = n / 10 / 10 % 10 := by omega
        rw [e1, e2]
        rfl

theorem daysInMonth_le (y m : Int) : rfc3339.daysInMonth y m ≤ 31 := by
  unfold rfc3339.daysInMonth
  split_ifs <;> omega

theorem unixDays_year_bounds (y m d : Int) (hm1 : 1 ≤ m) (hm2 : m ≤ 12) (hd1 : 1 ≤ d)
    (hd2 : d ≤ rfc3339.daysInMonth y m) :
    rfc3339.daysBeforeYear y ≤ rfc3339.unixDays y m d ∧
    rfc3339.unixDays y m d <
      rfc3339.daysBeforeYear y + 365 + (if rfc3339.isLeapYear y = true then 1 else 0) := by
  unfold rfc3339.unixDays rfc3339.daysBeforeMonth
  unfold rfc3339.daysInMonth at hd2
  generalize rfc3339.daysBeforeYear y = B
  interval_cases m <;> norm_num at hd2 ⊢ <;> split_ifs at hd2 ⊢ <;> omega

theorem year_range (y m d : Int) (hm1 : 1 ≤ m) (hm2 : m ≤ 12) (hd1 : 1 ≤ d)
    (hd2 : d ≤ rfc3339.daysInMonth y m) (h1 : -719528 ≤ rfc3339.unixDays y m d)
    (h2 : rfc3339.unixDays y m d < 2932897) : 0 ≤ y ∧ y ≤ 9999 := by
  obtain ⟨hlo, hhi⟩ := unixDays_year_bounds y m d hm1 hm2 hd1 hd2
  have hA : y ≤ -1 → rfc3339.daysBeforeYear y + 365 +
      (if rfc3339.isLeapYear y = true then 1 else 0) ≤ -719528 := by
    intro hy
    have h := leapYears_through y
    unfold rfc3339.daysBeforeYear
    generalize (if rfc3339.isLeapYear y = true then (1 : Int) else 0) = i at h ⊢
    omega
  have hB : 10000 ≤ y → 2932897 ≤ rfc3339.daysBeforeYear y := by
    intro hy
    unfold rfc3339.daysBeforeYear
    omega
  constructor
  · by_contra hneg
    have := hA (by omega)
    omega
  · by_contra hneg
    have := hB (by omega)
    omega

theorem absSec_of_range (t : time.Time) (h1 : -time.unixToAbsolute ≤ t.sec + t.offset)
    (h2 : t.sec + t.offset < 18446744073709551616 - time.unixToAbsolute) :
    t.absSec - time.unixToAbsolute = t.sec + t.offset := by
  unfold time.Time.absSec
  unfold time.unixToAbsolute at h1 h2 ⊢
  omega

theorem digitsValue_two (a b : Nat) (ha : a < 10) (hb : b < 10) :
    digitsValue ([digitChar a, digitChar b].map charDigit) = a * 10 + b := by
  simp [digitsValue, charDigit_digitChar, ha, hb]

theorem digitsValue_four (a b c d : Nat) (ha : a < 10) (hb : b < 10) (hc : c < 10)
    (hd : d < 10) :
    digitsValue ([digitChar a, digitChar b, digitChar c, digitChar d].map charDigit)
      = a * 1000 + b * 100 + c * 10 + d := by
  simp [digitsValue, charDigit_digitChar, ha, hb, hc, hd]
  omega

theorem isDigit_digitChar (d : Nat) : rfc3339.isDigit (digitChar d) = true := by
  have := digitChar_isDigit d
  simp [rfc3339.isDigit, this.1, this.2]

/-- The text of a date-time whose fields are in range, read back. -/
theorem unixSeconds_of_fields (Y M D h mi s : Nat) (hY : Y < 10000) (hM1 : 1 ≤ M) (hM2 : M ≤ 12)
    (hD1 : 1 ≤ D) (hD2 : (D : Int) ≤ rfc3339.daysInMonth Y M) (hh : h < 24) (hmi : mi < 60)
    (hs : s < 60) :
    rfc3339.unixSeconds (String.mk
      [digitChar (Y / 1000), digitChar (Y / 100 % 10), digitChar (Y / 10 % 10),
        digitChar (Y % 10), '-', digitChar (M / 10), digitChar (M % 10), '-',
        digitChar (D / 10), digitChar (D % 10), 'T', digitChar (h / 10), digitChar (h % 10), ':',
        digitChar (mi / 10), digitChar (mi % 10), ':', digitChar (s / 10), digitChar (s % 10),
        'Z'])
      = some (rfc3339.unixDays Y M D * 86400 + h * 3600 + mi * 60 + s) := by
  have hD3 : D ≤ 31 := by
    have := daysInMonth_le Y M
    omega
  have eY : digitsValue ([digitChar (Y / 1000), digitChar (Y / 100 % 10),
      digitChar (Y / 10 % 10), digitChar (Y % 10)].map charDigit) = Y := by
    rw [digitsValue_four _ _ _ _ (by omega) (by omega) (by omega) (by omega)]; omega
  have eM : digitsValue ([digitChar (M / 10), digitChar (M % 10)].map charDigit) = M := by
    rw [digitsValue_two _ _ (by omega) (by omega)]; omega
  have eD : digitsValue ([digitChar (D / 10), digitChar (D % 10)].map charDigit) = D := by
    rw [digitsValue_two _ _ (by omega) (by omega)]; omega
  have eh : digitsValue ([digitChar (h / 10), digitChar (h % 10)].map charDigit) = h := by
    rw [digitsValue_two _ _ (by omega) (by omega)]; omega
  have emi : digitsValue ([digitChar (mi / 10), digitChar (mi % 10)].map charDigit) = mi := by
    rw [digitsValue_two _ _ (by omega) (by omega)]; omega
  have es : digitsValue ([digitChar (s / 10), digitChar (s % 10)].map charDigit) = s := by
    rw [digitsValue_two _ _ (by omega) (by omega)]; omega
  unfold rfc3339.unixSeconds
  simp only [eY, eM, eD, eh, emi, es]
  rw [if_pos]
  refine ⟨trivial, trivial, trivial, trivial, trivial, trivial, ?_, by omega, by omega,
    by omega, hD2, by omega, by omega, by omega⟩
  simp [isDigit_digitChar]

/-- Reading back the rendering of a time in UTC between the years 0 and 9999
gives its Unix seconds, and the rendering has twenty characters. -/
theorem FormatRFC3339_readback (t : time.Time) (hoff : t.offset = 0)
    (h1 : -62167219200 ≤ t.sec) (h2 : t.sec < 253402300800) :
    t.FormatRFC3339.length = 20 ∧ rfc3339.unixSeconds t.FormatRFC3339 = some t.sec := by
  have hunix : t.absSec - time.unixToAbsolute = t.sec := by
    rw [absSec_of_range t (by rw [hoff]; unfold time.unixToAbsolute; omega)
      (by rw [hoff]; unfold time.unixToAbsolute; omega), hoff]
    omega
  have hspec := civilFromDays_spec (t.sec / 86400)
  unfold time.Time.FormatRFC3339
  simp only [hunix, hoff]
  generalize time.civilFromDays (t.sec / 86400) = ymd at hspec ⊢
  obtain ⟨y, m, d⟩ := ymd
  simp only at hspec ⊢
  obtain ⟨hm1, hm2, hd1, hd2, hdays⟩ := hspec
  obtain ⟨hy0, hy1⟩ := year_range y m d hm1 hm2 hd1 hd2 (by omega) (by omega)
  have hd3 : d ≤ 31 := le_trans hd2 (daysInMonth_le y m)
  obtain ⟨rem, hrem⟩ : ∃ rem : Int, rem = t.sec % 86400 := ⟨_, rfl⟩
  have hr0 : 0 ≤ rem := by omega
  have hr1 : rem < 86400 := by omega
  have hsec : t.sec = rfc3339.unixDays y m d * 86400 + rem := by omega
  rw [← hrem]
  rw [appendInt_four y hy0 (by omega), appendInt_two m (by omega) (by omega),
    appendInt_two d (by omega) (by omega), appendInt_two (rem / 3600) (by omega) (by omega),
    appendInt_two (rem % 3600 / 60) (by omega) (by omega),
    appendInt_two (rem % 60) (by omega) (by omega)]
  have hz : time.zoneSuffix 0 = ['Z'] := by simp [time.zoneSuffix]
  rw [hz]
  simp only [List.cons_append, List.nil_append, List.append_assoc]
  refine ⟨rfl, ?_⟩
  have ey : ((y.toNat : Nat) : Int) = y := Int.toNat_of_nonneg hy0
  have em : ((m.toNat : Nat) : Int) = m := Int.toNat_of_nonneg (by omega)
  have ed : ((d.toNat : Nat) : Int) = d := Int.toNat_of_nonneg (by omega)
  have eh : (((rem / 3600).toNat : Nat) : Int) = rem / 3600 := Int.toNat_of_nonneg (by omega)
  have emi : (((rem % 3600 / 60).toNat : Nat) : Int) = rem % 3600 / 60 :=
    Int.toNat_of_nonneg (by omega)
  have es : (((rem % 60).toNat : Nat) : Int) = rem % 60 := Int.toNat_of_nonneg (by omega)
  rw [unixSeconds_of_fields y.toNat m.toNat d.toNat (rem / 3600).toNat (rem % 3600 / 60).toNat
    (rem % 60).toNat (by omega) (by omega) (by omega) (by omega) (by rw [ey, em, ed]; exact hd2)
    (by omega) (by omega) (by omega)]
  rw [ey, em, ed, eh, emi, es, hsec]
  congr 1
  omega

/-! ## The record projector -/

theorem FormatRFC3339_ne_empty (t : time.Time) : t.FormatRFC3339 ≠ "" := by
  intro h
  have hlen := congrArg String.length h
  simp [time.Time.FormatRFC3339] at hlen

/-- C3. `formatTime v` is the empty string exactly when `v` is nil or its
Unix seconds are zero; for every other time it is the RFC 3339 text of the
time converted to UTC, which is not empty. For a time between the years 0 and
9999, the range RFC 3339 covers, that text has the twenty characters of
`YYYY-MM-DDTHH:MM:SSZ` and, read by the rules of the calendar, denotes the
Unix seconds of the time. The Unix epoch gives the empty string and
2024-01-02T03:04:05Z gives "2024-01-02T03:04:05Z". -/
theorem formatTime_empty_iff (v : Option time.Time) :
    (formatTime v = "" ↔ (v = none ∨ ∃ t, v = some t ∧ t.Unix = 0)) ∧
    (∀ t, v = some t → t.Unix ≠ 0 →
      formatTime v = t.UTC.FormatRFC3339 ∧ formatTime v ≠ "") ∧
    (∀ t, v = some t → t.Unix ≠ 0 → -62167219200 ≤ t.Unix → t.Unix < 253402300800 →
      (formatTime v).length = 20 ∧ rfc3339.unixSeconds (formatTime v) = some t.Unix) ∧
    formatTime (some { sec := 0, nsec := 0, offset := 0 }) = "" ∧
    formatTime (some { sec := 1704164645, nsec := 0, offset := 0 }) = "2024-01-02T03:04:05Z" := by
  refine ⟨?_, ?_, ?_, by decide, by decide⟩
  · cases v with
    | none => simp [formatTime]
    | some t =>
      by_cases h0 : t.Unix = 0
      · simp [formatTime, h0]
      · simp [formatTime, h0, FormatRFC3339_ne_empty]
  · intro t hv h0
    subst hv
    have : formatTime (some t) = t.UTC.FormatRFC3339 := by simp [formatTime, h0]
    exact ⟨this, this ▸ FormatRFC3339_ne_empty _⟩
  · intro t hv h0 hlo hhi
    subst hv
    have : formatTime (some t) = t.UTC.FormatRFC3339 := by simp [formatTime, h0]
    rw [this]
    exact FormatRFC3339_readback t.UTC rfl hlo hhi

/-- C3, at concrete times: a time in another zone is rendered in UTC, its
text reads back as its Unix seconds, and a time within the first second after
the epoch is rendered empty. -/
theorem formatTime_empty_iff_witness :
    formatTime (some { sec := 1704164645, nsec := 0, offset := 3600 }) = "2024-01-02T03:04:05Z" ∧
    formatTime (some { sec := 1704164645, nsec := 0, offset := 3600 }) ≠ "" ∧
    rfc3339.unixSeconds (formatTime (some { sec := 1709251199, nsec := 7, offset := -18000 }))
      = some 1709251199 ∧
    formatTime (some { sec := 1709251199, nsec := 7, offset := -18000 }) = "2024-02-29T23:59:59Z" ∧
    formatTime (some { sec := 0, nsec := 5, offset := 3600 }) = "" :=
  ⟨by decide,
   ((formatTime_empty_iff (some { sec := 1704164645, nsec := 0, offset := 3600 })).2.1
      { sec := 1704164645, nsec := 0, offset := 3600 } rfl (by decide)).2,
   ((formatTime_empty_iff (some { sec := 1709251199, nsec := 7, offset := -18000 })).2.2.1
      { sec := 1709251199, nsec := 7, offset := -18000 } rfl (by decide) (by decide)
      (by decide)).2,
   by decide,
   by decide⟩

/-- C6. `toUserItem u ns` is named by the record's UID, lies in namespace
`ns`, keeps the record's creation time, has as resource version the decimal
text of the record's last-updated time in Unix milliseconds (reading the text
back gives that number), and copies display name, login, email,
email-verified, disabled, admin and provisioned unchanged. -/
theorem toUserItem_fields (u : user.User) (ns : String) :
    (toUserItem u ns).ObjectMeta.Name = u.UID ∧
    (toUserItem u ns).ObjectMeta.Namespace = ns ∧
    (toUserItem u ns).ObjectMeta.CreationTimestamp = u.Created ∧
    (toUserItem u ns).ObjectMeta.ResourceVersion = fmt.Sprintf_d u.Updated.UnixMilli ∧
    parseDecimal (toUserItem u ns).ObjectMeta.ResourceVersion =
      wrapInt64 (u.Updated.sec * 1000 + (u.Updated.nsec / 1000000 : Nat)) ∧
    (toUserItem u ns).Spec.Name = u.Name ∧
    (toUserItem u ns).Spec.Login = u.Login ∧
    (toUserItem u ns).Spec.Email = u.Email ∧
    (toUserItem u ns).Spec.EmailVerified = u.EmailVerified ∧
    (toUserItem u ns).Spec.Disabled = u.IsDisabled ∧
    (toUserItem u ns).Spec.GrafanaAdmin = u.IsAdmin ∧
    (toUserItem u ns).Spec.Provisioned = u.IsProvisioned := by
  refine ⟨rfl, rfl, rfl, rfl, ?_, rfl, rfl, rfl, rfl, rfl, rfl, rfl⟩
  show parseDecimal (fmt.Sprintf_d u.Updated.UnixMilli) = _
  rw [parseDecimal_Sprintf_d]
  rfl

/-- The resource version of a projected record. -/
theorem toUserItem_resourceVersion (u : user.User) (ns : String) :
    (toUserItem u ns).ObjectMeta.ResourceVersion = fmt.Sprintf_d u.Updated.UnixMilli := rfl

/-- C4 as stated fails: `userEarly` was updated strictly before
`userSameMilli`, both resource versions are numeric strings of one length,
and the first is not below the second: they are the same text. -/
theorem resourceVersion_not_strictly_monotone :
    userEarly.Updated.Before userSameMilli.Updated = true ∧
    isNumericString (toUserItem userEarly "default").ObjectMeta.ResourceVersion = true ∧
    isNumericString (toUserItem userSameMilli "default").ObjectMeta.ResourceVersion = true ∧
    (toUserItem userEarly "default").ObjectMeta.ResourceVersion.length =
      (toUserItem userSameMilli "default").ObjectMeta.ResourceVersion.length ∧
    ¬ ((toUserItem userEarly "default").ObjectMeta.ResourceVersion <
        (toUserItem userSameMilli "default").ObjectMeta.ResourceVersion) := by
  have heq : (toUserItem userEarly "default").ObjectMeta.ResourceVersion =
      (toUserItem userSameMilli "default").ObjectMeta.ResourceVersion := by decide
  refine ⟨by decide, by decide, by decide, by decide, ?_⟩
  rw [heq]
  exact lt_irrefl _

/-- C4, amended. For two records whose resource versions are numeric strings
of one length: if the first record's last-updated time is earlier in whole
Unix milliseconds (as `UnixMilli` reports them), its resource version is
strictly below the other's in the lexicographic order of strings; if it is
merely earlier, both times being well formed with milliseconds that fit
`int64`, its resource version is below or equal. -/
theorem resourceVersion_monotone (r1 r2 : user.User) (ns1 ns2 : String)
    (hn1 : isNumericString (toUserItem r1 ns1).ObjectMeta.ResourceVersion = true)
    (hn2 : isNumericString (toUserItem r2 ns2).ObjectMeta.ResourceVersion = true)
    (hlen : (toUserItem r1 ns1).ObjectMeta.ResourceVersion.length =
      (toUserItem r2 ns2).ObjectMeta.ResourceVersion.length) :
    (r1.Updated.UnixMilli < r2.Updated.UnixMilli →
      (toUserItem r1 ns1).ObjectMeta.ResourceVersion <
        (toUserItem r2 ns2).ObjectMeta.ResourceVersion) ∧
    (r1.Updated.WellFormed → r2.Updated.WellFormed →
      r1.Updated.MilliRepresentable → r2.Updated.MilliRepresentable →
      r1.Updated.Before r2.Updated = true →
      (toUserItem r1 ns1).ObjectMeta.ResourceVersion ≤
        (toUserItem r2 ns2).ObjectMeta.ResourceVersion) := by
  rw [toUserItem_resourceVersion] at hn1 hn2 hlen ⊢
  rw [toUserItem_resourceVersion] at hlen ⊢
  refine ⟨fun hlt => Sprintf_d_lt _ _ hn1 hn2 hlen hlt, ?_⟩
  intro hw1 hw2 hr1 hr2 hb
  rcases lt_or_eq_of_le (UnixMilli_mono _ _ hw1 hw2 hr1 hr2 hb) with hlt | heq
  · exact le_of_lt (Sprintf_d_lt _ _ hn1 hn2 hlen hlt)
  · rw [heq]

/-- C4, amended, at concrete records: one millisecond apart the resource
version rises strictly, within one millisecond it does not fall. -/
theorem resourceVersion_monotone_witness :
    (toUserItem userEarly "default").ObjectMeta.ResourceVersion <
        (toUserItem userNextMilli "org-2").ObjectMeta.ResourceVersion ∧
    (toUserItem userEarly "default").ObjectMeta.ResourceVersion ≤
        (toUserItem userNextMilli "org-2").ObjectMeta.ResourceVersion :=
  ⟨(resourceVersion_monotone userEarly userNextMilli "default" "org-2"
      (by decide) (by decide) (by decide)).1 (by decide),
   (resourceVersion_monotone userEarly userNextMilli "default" "org-2"
      (by decide) (by decide) (by decide)).2
      (by decide) (by decide) (by decide) (by decide) (by decide)⟩

/-- C5 as stated fails: `userEarly` and `userSameMilli` have different
last-updated times (not the same instant either) and yet the same resource
version. -/
theorem resourceVersion_same_for_different_times :
    userEarly.Updated ≠ userSameMilli.Updated ∧
    userEarly.Updated.Equal userSameMilli.Updated = false ∧
    (toUserItem userEarly "default").ObjectMeta.ResourceVersion =
      (toUserItem userSameMilli "default").ObjectMeta.ResourceVersion := by
  decide

/-- C5, amended. The resource versions of two projected records, under any
namespaces, are identical when the two last-updated times are the same (as
values, or as instants in the sense of `Equal`), and they are identical
exactly when the two times have the same `UnixMilli`: times that differ in
their millisecond give different resource versions. -/
theorem resourceVersion_eq_iff (r1 r2 : user.User) (ns1 ns2 : String) :
    (r1.Updated = r2.Updated →
      (toUserItem r1 ns1).ObjectMeta.ResourceVersion =
        (toUserItem r2 ns2).ObjectMeta.ResourceVersion) ∧
    (r1.Updated.Equal r2.Updated = true →
      (toUserItem r1 ns1).ObjectMeta.ResourceVersion =
        (toUserItem r2 ns2).ObjectMeta.ResourceVersion) ∧
    (r1.Updated.UnixMilli ≠ r2.Updated.UnixMilli →
      (toUserItem r1 ns1).ObjectMeta.ResourceVersion ≠
        (toUserItem r2 ns2).ObjectMeta.ResourceVersion) ∧
    ((toUserItem r1 ns1).ObjectMeta.ResourceVersion =
        (toUserItem r2 ns2).ObjectMeta.ResourceVersion ↔
      r1.Updated.UnixMilli = r2.Updated.UnixMilli) := by
  rw [toUserItem_resourceVersion, toUserItem_resourceVersion]
  have hiff : fmt.Sprintf_d r1.Updated.UnixMilli = fmt.Sprintf_d r2.Updated.UnixMilli ↔
      r1.Updated.UnixMilli = r2.Updated.UnixMilli :=
    ⟨Sprintf_d_injective _ _, fun h => by rw [h]⟩
  refine ⟨fun h => by rw [h], ?_, fun h hrv => h (hiff.1 hrv), hiff⟩
  intro heq
  unfold time.Time.Equal at heq
  simp only [Bool.and_eq_true, decide_eq_true_eq] at heq
  unfold time.Time.UnixMilli
  rw [heq.1, heq.2]

/-- C5, amended, at concrete records: the same instant in two zones gives
one resource version, and one millisecond later gives another. -/
theorem resourceVersion_eq_iff_witness :
    (toUserItem userEarly "default").ObjectMeta.ResourceVersion =
      (toUserItem (sampleUser 9 "u-zone" { sec := 1704164645, nsec := 0, offset := 7200 })
        "org-2").ObjectMeta.ResourceVersion ∧
    (toUserItem userEarly "default").ObjectMeta.ResourceVersion ≠
      (toUserItem userNextMilli "default").ObjectMeta.ResourceVersion :=
  ⟨(resourceVersion_eq_iff userEarly
      (sampleUser 9 "u-zone" { sec := 1704164645, nsec := 0, offset := 7200 })
      "default" "org-2").2.1 (by decide),
   (resourceVersion_eq_iff userEarly userNextMilli "default" "default").2.2.1 (by decide)⟩

/-! ## The operations -/

theorem foldl_append_eq_map {α β : Type} (f : α → β) (us : List α) (acc : List β) :
    us.foldl (fun users u => users ++ [f u]) acc = acc ++ us.map f := by
  induction us generalizing acc with
  | nil => simp
  | cons u us ih => simp [ih]

/-- The page built from a store answer without error. -/
theorem listFn_ok (s : LegacyStore) (ctx : context.Context) (ns : claims.NamespaceInfo)
    (p : common.Pagination) (found : legacy.ListUserResult)
    (hq : s.store.ListUsers ctx ns { Pagination := p } = (some found, none)) :
    s.listFn ctx ns p =
      .ok { Items := found.Users.map (fun u => toUserItem u ns.Value)
            RV := found.RV
            Continue := found.Continue } := by
  unfold LegacyStore.listFn
  rw [hq]
  simp [foldl_append_eq_map]

/-- The list function hands a store error back as it is. -/
theorem listFn_err (s : LegacyStore) (ctx : context.Context) (ns : claims.NamespaceInfo)
    (p : common.Pagination) (found : Option legacy.ListUserResult) (e : Error)
    (hq : s.store.ListUsers ctx ns { Pagination := p } = (found, some e)) :
    s.listFn ctx ns p = .err e := by
  unfold LegacyStore.listFn
  rw [hq]
  cases found <;> rfl

/-- C1. When the namespace scope resolves and the store answers the query of
`Get` with a nil result, with an error (with or without a result), or with
an empty page, `Get` returns no resource but the NotFound error for exactly
the requested name, whatever the store's own error was. -/
theorem Get_notFound (resource : utils.ResourceInfo) (s : LegacyStore) (ctx : context.Context)
    (ns : claims.NamespaceInfo) (name : String) (options : metav1.GetOptions)
    (found : Option legacy.ListUserResult) (err : Option Error)
    (hns : request.NamespaceInfoFrom ctx = .ok ns)
    (hq : s.store.ListUsers ctx ns
      { OrgID := ns.OrgID, UID := name, Pagination := { Limit := 1, Continue := 0 } }
        = (found, err))
    (hbad : found = none ∨ err ≠ none ∨ ∃ f, found = some f ∧ f.Users = []) :
    s.Get resource ctx name options = .err (Error.NotFound resource.GetName name) ∧
    (∀ obj, s.Get resource ctx name options ≠ .ok obj) ∧
    (∀ msg, s.Get resource ctx name options ≠ .err (Error.Other msg)) := by
  have hget : s.Get resource ctx name options = .err (Error.NotFound resource.GetName name) := by
    unfold LegacyStore.Get
    rw [hns]
    simp only [hq]
    cases found with
    | none => rfl
    | some f =>
      cases err with
      | some e => rfl
      | none =>
        rcases hbad with h | h | ⟨f2, hf, hnil⟩
        · cases h
        · exact absurd rfl h
        · cases hf
          simp [hnil, utils.ResourceInfo.NewNotFound, utils.ResourceInfo.GetName]
  rw [hget]
  refine ⟨rfl, ?_, ?_⟩
  · intro obj h
    cases h
  · intro msg h
    cases h

/-- C1, at concrete stores: a failing backend and an unknown name both give
NotFound for "nonexistent-uid". -/
theorem Get_notFound_witness :
    (NewLegacyStore failingStore allowAll).Get sampleResource sampleCtx "nonexistent-uid" {}
      = .err (Error.NotFound "users" "nonexistent-uid") ∧
    (NewLegacyStore sampleStore allowAll).Get sampleResource sampleCtx "nonexistent-uid" {}
      = .err (Error.NotFound "users" "nonexistent-uid") :=
  ⟨(Get_notFound sampleResource (NewLegacyStore failingStore allowAll) sampleCtx sampleNs
      "nonexistent-uid" {} none (some (Error.Other "database is locked")) rfl rfl
      (Or.inl rfl)).1,
   (Get_notFound sampleResource (NewLegacyStore sampleStore allowAll) sampleCtx sampleNs
      "nonexistent-uid" {} (some { Users := [], Continue := 4, RV := 77 }) none rfl
      (by decide) (Or.inr (Or.inr ⟨_, rfl, rfl⟩))).1⟩

/-- C2. When the namespace scope resolves to `ns` and the store answers the
query of `Get` (limit 1, UID the requested name, the organisation of `ns`)
without error with a page whose first record is `u`, `Get` succeeds, and the
resource it returns is the very item that the list function of `List`
builds for `u` under `ns`: wherever a page handed to the list function
holds `u`, the item at that position equals the resource of `Get`. -/
theorem Get_eq_list_item (resource : utils.ResourceInfo) (s : LegacyStore)
    (ctx : context.Context) (ns : claims.NamespaceInfo) (name : String)
    (options : metav1.GetOptions) (found : legacy.ListUserResult) (u : user.User)
    (rest : List user.User)
    (hns : request.NamespaceInfoFrom ctx = .ok ns)
    (hq : s.store.ListUsers ctx ns
      { OrgID := ns.OrgID, UID := name, Pagination := { Limit := 1, Continue := 0 } }
        = (some found, none))
    (hu : found.Users = u :: rest) :
    ∃ obj, s.Get resource ctx name options = .ok obj ∧ obj = toUserItem u ns.Value ∧
      ∀ (p : common.Pagination) (page : legacy.ListUserResult) (i : Nat),
        s.store.ListUsers ctx ns { Pagination := p } = (some page, none) →
        page.Users[i]? = some u →
        ∃ resp, s.listFn ctx ns p = .ok resp ∧ resp.Items[i]? = some obj := by
  refine ⟨toUserItem u ns.Value, ?_, rfl, ?_⟩
  · unfold LegacyStore.Get
    rw [hns]
    simp [hq, hu]
  · intro p page i hp hi
    refine ⟨_, listFn_ok s ctx ns p page hp, ?_⟩
    simp [List.getElem?_map, hi]

/-- C2, at the sample store: `Get` of "u-next-milli" returns the item that
the list function builds at position 2 of the full page. -/
theorem Get_eq_list_item_witness :
    ∃ obj resp,
      (NewLegacyStore sampleStore denyAll).Get sampleResource sampleCtx "u-next-milli" {} = .ok obj ∧
      (NewLegacyStore sampleStore denyAll).listFn sampleCtx sampleNs { Limit := 10, Continue := 0 }
        = .ok resp ∧
      resp.Items[2]? = some obj :=
  match Get_eq_list_item sampleResource (NewLegacyStore sampleStore denyAll) sampleCtx sampleNs
      "u-next-milli" {} { Users := [userNextMilli], Continue := 4, RV := 77 } userNextMilli []
      rfl (by decide) rfl with
  | ⟨obj, hget, _, hall⟩ =>
    match hall { Limit := 10, Continue := 0 } { Users := sampleRows, Continue := 4, RV := 77 } 2
        (by decide) (by decide) with
    | ⟨resp, hresp, hitem⟩ => ⟨obj, resp, hget, hresp, hitem⟩

/-- C7. For every page the store returns without error, the page that the
list function of `List` assembles has one item per record, the i-th item
being `toUserItem` of the i-th record under the namespace value of the
request, in the store's order; its resource version and its continuation are
the store's values unchanged. -/
theorem listFn_page (s : LegacyStore) (ctx : context.Context) (ns : claims.NamespaceInfo)
    (p : common.Pagination) (found : legacy.ListUserResult)
    (hq : s.store.ListUsers ctx ns { Pagination := p } = (some found, none)) :
    ∃ resp, s.listFn ctx ns p = .ok resp ∧
      resp.Items.length = found.Users.length ∧
      (∀ i : Nat, resp.Items[i]? = (found.Users[i]?).map (fun u => toUserItem u ns.Value)) ∧
      resp.Items = found.Users.map (fun u => toUserItem u ns.Value) ∧
      resp.RV = found.RV ∧
      resp.Continue = found.Continue := by
  refine ⟨_, listFn_ok s ctx ns p found hq, ?_, ?_, rfl, rfl, rfl⟩
  · simp
  · intro i
    simp [List.getElem?_map]

/-- C7, at the sample store: three records give three items in the store's
order, with the store's resource version 77 and cursor 4. -/
theorem listFn_page_witness :
    ∃ resp, (NewLegacyStore sampleStore denyAll).listFn sampleCtx sampleNs
        { Limit := 10, Continue := 0 } = .ok resp ∧
      resp.Items.length = 3 ∧
      resp.Items = [toUserItem userEarly "default", toUserItem userSameMilli "default",
        toUserItem userNextMilli "default"] ∧
      resp.RV = 77 ∧ resp.Continue = 4 :=
  match listFn_page (NewLegacyStore sampleStore denyAll) sampleCtx sampleNs
      { Limit := 10, Continue := 0 } { Users := sampleRows, Continue := 4, RV := 77 }
      (by decide) with
  | ⟨resp, hresp, hlen, _, hitems, hrv, hcont⟩ => ⟨resp, hresp, hlen, hitems, hrv, hcont⟩

/-- C8. When the namespace scope resolves and the store's query fails with
an error `e`, `List` returns no list object and its error is `e` itself. -/
theorem List_store_error (resource : utils.ResourceInfo)
    (paginationFromListOptions : internalversion.ListOptions → common.Pagination)
    (s : LegacyStore) (ctx : context.Context) (ns : claims.NamespaceInfo)
    (options : internalversion.ListOptions) (found : Option legacy.ListUserResult) (e : Error)
    (hns : request.NamespaceInfoFrom ctx = .ok ns)
    (hq : s.store.ListUsers ctx ns { Pagination := paginationFromListOptions options }
      = (found, some e)) :
    s.List resource paginationFromListOptions ctx options = .err e := by
  unfold LegacyStore.List common.List
  rw [hns]
  simp only [listFn_err s ctx ns _ found e hq]

/-- C8, at the failing store: `List` hands back the store's own error. -/
theorem List_store_error_witness :
    (NewLegacyStore failingStore allowAll).List sampleResource samplePagination sampleCtx
      { Limit := 10, Continue := "" } = .err (Error.Other "database is locked") :=
  List_store_error sampleResource samplePagination (NewLegacyStore failingStore allowAll)
    sampleCtx sampleNs { Limit := 10, Continue := "" } none (Error.Other "database is locked")
    rfl rfl

/-- C9. When the namespace scope resolves and the store returns a page
without error, `List` succeeds whatever the access client decides: its
items are the projections of exactly the records the check allows, in the
store's order, and its continuation and resource version are the texts of
the store's cursor and resource version for that page, the same for every
access client. -/
theorem List_authorized_items (resource : utils.ResourceInfo)
    (paginationFromListOptions : internalversion.ListOptions → common.Pagination)
    (s : LegacyStore) (ctx : context.Context) (ns : claims.NamespaceInfo)
    (options : internalversion.ListOptions) (found : legacy.ListUserResult)
    (hns : request.NamespaceInfoFrom ctx = .ok ns)
    (hq : s.store.ListUsers ctx ns { Pagination := paginationFromListOptions options }
      = (some found, none)) :
    s.List resource paginationFromListOptions ctx options =
      .ok { Items := (found.Users.filter
                (fun u => s.ac.CheckAccess ns resource.GetName u.UID)).map
                  (fun u => toUserItem u ns.Value)
            Continue := common.OptionalFormatInt found.Continue
            ResourceVersion := common.OptionalFormatInt found.RV } ∧
    (found.Continue ≠ 0 →
      parseDecimal (common.OptionalFormatInt found.Continue) = found.Continue) ∧
    (found.Continue = 0 → common.OptionalFormatInt found.Continue = "") := by
  refine ⟨?_, ?_, ?_⟩
  · unfold LegacyStore.List common.List
    rw [hns]
    simp only [listFn_ok s ctx ns _ found hq]
    congr 2
    rw [List.filter_map]
    rfl
  · intro h
    unfold common.OptionalFormatInt
    simp only [h, ne_eq, not_false_eq_true, if_true]
    exact parseDecimal_Sprintf_d _
  · intro h
    simp [common.OptionalFormatInt, h]

/-- C9, at the sample store: of three records with the second denied, `List`
returns the first and the third with no error, and the continuation is the
store's cursor 4. -/
theorem List_authorized_items_witness :
    (NewLegacyStore sampleStore denySecond).List sampleResource samplePagination sampleCtx
      { Limit := 10, Continue := "" } =
      .ok { Items := [toUserItem userEarly "default", toUserItem userNextMilli "default"]
            Continue := "4"
            ResourceVersion := "77" } :=
  (List_authorized_items sampleResource samplePagination (NewLegacyStore sampleStore denySecond)
    sampleCtx sampleNs { Limit := 10, Continue := "" }
    { Users := sampleRows, Continue := 4, RV := 77 } rfl (by decide)).1.trans (by decide)

/-- C10. `Get` does not consult the access client: two adapters over the
same store with any two access clients return the same result for every
context and name. -/
theorem Get_ignores_access_client (resource : utils.ResourceInfo)
    (store : legacy.LegacyIdentityStore) (ac1 ac2 : claims.AccessClient)
    (ctx : context.Context) (name : String) (options : metav1.GetOptions) :
    (NewLegacyStore store ac1).Get resource ctx name options =
      (NewLegacyStore store ac2).Get resource ctx name options := rfl
